import Mathlib

/-!
Verification of the stage-composition / serialization substrate of the
tokenizers Ruby bindings (files `ext/tokenizers/src/normalizers.rs` and
`ext/tokenizers/src/pre_tokenizers.rs`).

The two source files instantiate one generic design twice: a pipeline is
either a `Single` stage cell or a flattened `Sequence` of stage cells, where
a cell is an `Arc<RwLock<...>>` shared-ownership container around one
concrete stage.  We embed this design shallowly:

* `RbTypeWrapper κ` is the pipeline shape shared by `RbNormalizerTypeWrapper`
  and `RbPreTokenizerTypeWrapper`; instantiating the cell type `κ` with the
  leaf wrapper type gives the value-level view (cell contents, sharing
  quotiented away), and instantiating `κ` with `Nat` gives the reference
  view used together with an explicit heap for the aliasing claims.
* Stage operations (`normalize` / `pre_tokenize`) mutate a buffer in place
  and may fail; we embed them as explicit state passing
  `σ → Except ε σ` with the backend operation `app` as a parameter, since
  the concrete text transformations live in the external `tk` crate and are
  opaque to this layer.
* The structural interchange format is modelled by `JVal` (a JSON value
  model).  The `Serialize` impls of the source are embedded directly; leaf
  field layouts and the decode rule are modelled from the spec because they
  live in the external backend and in derived serde code (see the doc
  comments marked `Modelled from the spec:`).
-/

namespace TokenizersRuby

/-- JSON-like structural interchange value (model of `serde_json`-style
structural data exchanged by the codec). -/
inductive JVal : Type where
  | jstr (s : String)
  | jbool (b : Bool)
  | jnull
  | jarr (elems : List JVal)
  | jobj (fields : List (String × JVal))
deriving Inhabited

mutual

/-- Structural size of a `JVal`, used as a recursion-depth bound by the
decode procedure. -/
def JVal.size : JVal → Nat
  | .jstr _ => 1
  | .jbool _ => 1
  | .jnull => 1
  | .jarr elems => 1 + JVal.sizeList elems
  | .jobj fs => 1 + JVal.sizeFields fs

/-- Total size of a list of values. -/
def JVal.sizeList : List JVal → Nat
  | [] => 0
  | v :: vs => JVal.size v + JVal.sizeList vs

/-- Total size of the values of an object's field list. -/
def JVal.sizeFields : List (String × JVal) → Nat
  | [] => 0
  | (_, v) :: fs => JVal.size v + JVal.sizeFields fs

end

/-- Leaf normalizer catalog: the variants of `tk::NormalizerWrapper` imported
and matched by `normalizers.rs` (BertNormalizer, Lowercase, NFC, NFD, NFKC,
NFKD, Nmt, Replace, Prepend, Strip, StripAccents).  Each variant carries the
configuration fields the bindings access; `Replace`'s pattern is modelled as
its string form. -/
inductive NormalizerWrapper : Type where
  | bertNormalizer (clean_text : Bool) (handle_chinese_chars : Bool)
      (strip_accents : Option Bool) (lowercase : Bool)
  | lowercase
  | nfc
  | nfd
  | nfkc
  | nfkd
  | nmt
  | prepend (prepend : String)
  | replace (pattern : String) (content : String)
  | stripNormalizer (strip_left : Bool) (strip_right : Bool)
  | stripAccents
deriving DecidableEq

/-- `RbNormalizerWrapper` from `normalizers.rs` (the commented-out `Custom`
variant is absent from the compiled source, so the enum has the single
`Wrapped` variant). -/
inductive RbNormalizerWrapper : Type where
  | Wrapped (w : NormalizerWrapper)
deriving DecidableEq

/-- Leaf pre-tokenizer catalog: the variants of `tk::PreTokenizerWrapper`
imported and matched by `pre_tokenizers.rs`.  `Delimiter` is the variant
holding `CharDelimiterSplit`; split/punctuation behaviors are modelled by
their serialized string form. -/
inductive PreTokenizerWrapper : Type where
  | bertPreTokenizer
  | byteLevel (add_prefix_space : Bool) (use_regex : Bool)
  | delimiter (delim : Char)
  | digits (individual_digits : Bool)
  | metaspace (replacement : Char) (add_prefix_space : Bool)
  | punctuation (behavior : String)
  | split (pattern : String) (behavior : String) (invert : Bool)
  | unicodeScripts
  | whitespace
  | whitespaceSplit
deriving DecidableEq

/-- `RbPreTokenizerWrapper` from `pre_tokenizers.rs` (single `Wrapped`
variant, as in the source). -/
inductive RbPreTokenizerWrapper : Type where
  | Wrapped (w : PreTokenizerWrapper)
deriving DecidableEq

/-- The pipeline shape shared by `RbNormalizerTypeWrapper` and
`RbPreTokenizerTypeWrapper`: a flattened `Sequence` of stage cells or a
`Single` stage cell.  The cell type `κ` is the content of the
`Arc<RwLock<...>>` cell in the value-level view, or a heap reference (`Nat`)
in the sharing view. -/
inductive RbTypeWrapper (κ : Type) : Type where
  | Sequence (cells : List κ)
  | Single (cell : κ)
deriving DecidableEq

/-- `RbNormalizerTypeWrapper` from `normalizers.rs`, value-level view. -/
abbrev RbNormalizerTypeWrapper : Type := RbTypeWrapper RbNormalizerWrapper

/-- `RbPreTokenizerTypeWrapper` from `pre_tokenizers.rs`, value-level view. -/
abbrev RbPreTokenizerTypeWrapper : Type := RbTypeWrapper RbPreTokenizerWrapper

/-- The leaf cells contributed by one pipeline: a `Single` contributes its
one cell, a `Sequence` contributes its cells in order. -/
def leafCells {κ : Type} : RbTypeWrapper κ → List κ
  | .Sequence cells => cells
  | .Single cell => [cell]

/-- `RbSequence::new` from both source files (composition): iterate the
input pipelines in order; a `Sequence` extends the accumulator with its
cells, a `Single` pushes its cell.  The result is a new `Sequence`. -/
def rbSequenceNew {κ : Type} (ps : List (RbTypeWrapper κ)) : RbTypeWrapper κ :=
  .Sequence (ps.foldl
    (fun acc p =>
      match p with
      | .Sequence inner => acc ++ inner
      | .Single inner => acc ++ [inner])
    [])

theorem rbSequenceNew_foldl {κ : Type} (ps : List (RbTypeWrapper κ)) (acc : List κ) :
    ps.foldl
      (fun acc p =>
        match p with
        | .Sequence inner => acc ++ inner
        | .Single inner => acc ++ [inner])
      acc = acc ++ (ps.map leafCells).flatten := by
  induction ps generalizing acc with
  | nil => simp
  | cons p ps ih =>
    cases p with
    | Sequence inner => simp [List.foldl_cons, ih, leafCells]
    | Single inner => simp [List.foldl_cons, ih, leafCells]

theorem rbSequenceNew_eq {κ : Type} (ps : List (RbTypeWrapper κ)) :
    rbSequenceNew ps = .Sequence ((ps.map leafCells).flatten) := by
  simp [rbSequenceNew, rbSequenceNew_foldl]

/-- Executing a list of stage cells in order over a mutable buffer, the
embedding of `iter().try_for_each(|n| n.read().unwrap().op(buffer))` from
both source files: each stage consumes the previous stage's output state;
the first failure stops execution, returning the buffer as mutated by the
stages already run together with the error. -/
def tryForEach {κ σ ε : Type} (app : κ → σ → Except ε σ) : List κ → σ → σ × Option ε
  | [], s => (s, none)
  | c :: cs, s =>
    match app c s with
    | .ok s2 => tryForEach app cs s2
    | .error e => (s, some e)

/-- The dispatcher shared by `Normalizer for RbNormalizerTypeWrapper` and
`PreTokenizer for RbPreTokenizerTypeWrapper`: a `Single` runs its one cell's
operation, a `Sequence` runs its cells in order through `tryForEach`. -/
def dispatchRun {κ σ ε : Type} (app : κ → σ → Except ε σ) :
    RbTypeWrapper κ → σ → σ × Option ε
  | .Single c, s =>
    match app c s with
    | .ok s2 => (s2, none)
    | .error e => (s, some e)
  | .Sequence cs, s => tryForEach app cs s

/-- `Normalizer::normalize` for `RbNormalizerTypeWrapper`
(`normalizers.rs`), with the backend stage operation as parameter `app`. -/
def RbNormalizerTypeWrapper.normalize {σ ε : Type}
    (app : RbNormalizerWrapper → σ → Except ε σ)
    (p : RbNormalizerTypeWrapper) (s : σ) : σ × Option ε :=
  dispatchRun app p s

/-- `PreTokenizer::pre_tokenize` for `RbPreTokenizerTypeWrapper`
(`pre_tokenizers.rs`), with the backend stage operation as parameter. -/
def RbPreTokenizerTypeWrapper.pre_tokenize {σ ε : Type}
    (app : RbPreTokenizerWrapper → σ → Except ε σ)
    (p : RbPreTokenizerTypeWrapper) (s : σ) : σ × Option ε :=
  dispatchRun app p s

theorem tryForEach_append {κ σ ε : Type} (app : κ → σ → Except ε σ)
    (cs1 cs2 : List κ) (s : σ) :
    tryForEach app (cs1 ++ cs2) s =
      match tryForEach app cs1 s with
      | (s1, none) => tryForEach app cs2 s1
      | (s1, some e) => (s1, some e) := by
  induction cs1 generalizing s with
  | nil => simp [tryForEach]
  | cons c cs ih =>
    simp only [List.cons_append, tryForEach]
    cases app c s with
    | ok s2 => exact ih s2
    | error e => rfl

theorem tryForEach_first_failure {κ σ ε : Type} (app : κ → σ → Except ε σ)
    (pre post : List κ) (c : κ) (s s1 : σ) (e : ε)
    (hpre : tryForEach app pre s = (s1, none))
    (hc : app c s1 = .error e) :
    tryForEach app (pre ++ c :: post) s = (s1, some e) := by
  rw [tryForEach_append, hpre]
  simp [tryForEach, hc]

/-! ## Codec: structural interchange

The `Serialize` impls for the type wrappers are in the source files and are
embedded directly.  The field layout of each leaf variant and the decode
procedure live in the external backend (`tk`) and in derived serde code;
they are modelled from the spec (§4.4 and the §6 interchange signature
table). -/

/-- Modelled from the spec: the interchange variant tags of the normalizer
family, in the fixed priority order of the §6 signature table (the decode
procedure tries signatures in this order). -/
inductive NormTag : Type where
  | bertNormalizer
  | lowercase
  | nfc
  | nfd
  | nfkc
  | nfkd
  | nmt
  | prepend
  | replace
  | strip
  | stripAccents
deriving DecidableEq, Fintype

/-- Modelled from the spec: required interchange fields of each normalizer
variant (§6; `strip_accents?` is optional for `BertNormalizer`). -/
def NormTag.required : NormTag → List String
  | .bertNormalizer => ["clean_text", "handle_chinese_chars", "lowercase"]
  | .prepend => ["prepend"]
  | .replace => ["pattern", "content"]
  | .strip => ["strip_left", "strip_right"]
  | _ => []

/-- Modelled from the spec: optional interchange fields of each normalizer
variant (§6). -/
def NormTag.optional : NormTag → List String
  | .bertNormalizer => ["strip_accents"]
  | _ => []

/-- Modelled from the spec: the interchange variant tags of the
pre-tokenizer family, in §6 order. -/
inductive PreTag : Type where
  | bertPreTokenizer
  | byteLevel
  | charDelimiterSplit
  | digits
  | metaspace
  | punctuation
  | split
  | unicodeScripts
  | whitespace
  | whitespaceSplit
deriving DecidableEq, Fintype

/-- Modelled from the spec: required interchange fields of each
pre-tokenizer variant (§6). -/
def PreTag.required : PreTag → List String
  | .byteLevel => ["add_prefix_space", "use_regex"]
  | .charDelimiterSplit => ["delimiter"]
  | .digits => ["individual_digits"]
  | .metaspace => ["replacement", "add_prefix_space"]
  | .punctuation => ["behavior"]
  | .split => ["pattern", "behavior", "invert"]
  | _ => []

/-- Modelled from the spec: optional interchange fields of each
pre-tokenizer variant (§6: none). -/
def PreTag.optional : PreTag → List String := fun _ => []

/-- `xs` is (as a set) contained in `ys`. -/
def subsetB (xs ys : List String) : Bool :=
  xs.all fun x => ys.contains x

/-- Modelled from the spec: a field-name set satisfies a signature when all
required fields are present and no field outside required ∪ optional is
present (§4.4: "required fields are all present (and no disallowed extra
fields are present)"). -/
def sigMatch (names req opt : List String) : Bool :=
  subsetB req names && subsetB names (req ++ opt)

/-- Encoding of an optional boolean field (serde serializes `None` as
null). -/
def encodeOptBool : Option Bool → JVal
  | none => .jnull
  | some b => .jbool b

/-- Encoding of a character-valued field as its one-character string. -/
def encodeChar (c : Char) : JVal :=
  .jstr (String.mk [c])

/-- Modelled from the spec: the flat structural encoding of each normalizer
leaf variant — exactly its §6 field set, no explicit type tag (§4.4). -/
def NormalizerWrapper.encode : NormalizerWrapper → JVal
  | .bertNormalizer ct hcc sa lc =>
    .jobj [("clean_text", .jbool ct), ("handle_chinese_chars", .jbool hcc),
           ("strip_accents", encodeOptBool sa), ("lowercase", .jbool lc)]
  | .lowercase => .jobj []
  | .nfc => .jobj []
  | .nfd => .jobj []
  | .nfkc => .jobj []
  | .nfkd => .jobj []
  | .nmt => .jobj []
  | .prepend p => .jobj [("prepend", .jstr p)]
  | .replace pat c => .jobj [("pattern", .jstr pat), ("content", .jstr c)]
  | .stripNormalizer l r =>
    .jobj [("strip_left", .jbool l), ("strip_right", .jbool r)]
  | .stripAccents => .jobj []

/-- Modelled from the spec: the flat structural encoding of each
pre-tokenizer leaf variant (§6 field sets, no type tag). -/
def PreTokenizerWrapper.encode : PreTokenizerWrapper → JVal
  | .bertPreTokenizer => .jobj []
  | .byteLevel aps ur =>
    .jobj [("add_prefix_space", .jbool aps), ("use_regex", .jbool ur)]
  | .delimiter d => .jobj [("delimiter", encodeChar d)]
  | .digits indiv => .jobj [("individual_digits", .jbool indiv)]
  | .metaspace r aps =>
    .jobj [("replacement", encodeChar r), ("add_prefix_space", .jbool aps)]
  | .punctuation b => .jobj [("behavior", .jstr b)]
  | .split pat b inv =>
    .jobj [("pattern", .jstr pat), ("behavior", .jstr b), ("invert", .jbool inv)]
  | .unicodeScripts => .jobj []
  | .whitespace => .jobj []
  | .whitespaceSplit => .jobj []

/-- `Serialize for RbNormalizerWrapper` (`normalizers.rs`): delegate to the
wrapped variant's own serialization. -/
def RbNormalizerWrapper.serialize : RbNormalizerWrapper → JVal
  | .Wrapped w => w.encode

/-- `Serialize for RbNormalizerTypeWrapper` (`normalizers.rs`): a `Sequence`
becomes a struct with the `type = "Sequence"` discriminator and the ordered
`normalizers` list of its member cells' encodings; a `Single` serializes as
its inner cell. -/
def RbNormalizerTypeWrapper.serialize : RbNormalizerTypeWrapper → JVal
  | .Sequence seq =>
    .jobj [("type", .jstr "Sequence"),
           ("normalizers", .jarr (seq.map RbNormalizerWrapper.serialize))]
  | .Single inner => inner.serialize

/-- `Serialize for RbPreTokenizerWrapper` (`pre_tokenizers.rs`). -/
def RbPreTokenizerWrapper.serialize : RbPreTokenizerWrapper → JVal
  | .Wrapped w => w.encode

/-- `Serialize for RbPreTokenizerTypeWrapper` (`pre_tokenizers.rs`): like
the normalizer family but with the `pretokenizers` list field. -/
def RbPreTokenizerTypeWrapper.serialize : RbPreTokenizerTypeWrapper → JVal
  | .Sequence seq =>
    .jobj [("type", .jstr "Sequence"),
           ("pretokenizers", .jarr (seq.map RbPreTokenizerWrapper.serialize))]
  | .Single inner => inner.serialize

/-- Look up a field by name in a structural object. -/
def findField (fs : List (String × JVal)) (key : String) : Option JVal :=
  match fs with
  | [] => none
  | (k, v) :: rest => if k = key then some v else findField rest key

def asBool : JVal → Option Bool
  | .jbool b => some b
  | _ => none

def asStr : JVal → Option String
  | .jstr s => some s
  | _ => none

def asOptBool : JVal → Option (Option Bool)
  | .jnull => some none
  | .jbool b => some (some b)
  | _ => none

def asChar : JVal → Option Char
  | .jstr s =>
    match s.toList with
    | [c] => some c
    | _ => none
  | _ => none

/-- Field reader for `BertNormalizer`'s payload. -/
def parseBert (fs : List (String × JVal)) : Option NormalizerWrapper := do
  let ct ← findField fs "clean_text" >>= asBool
  let hcc ← findField fs "handle_chinese_chars" >>= asBool
  let lc ← findField fs "lowercase" >>= asBool
  let sa ←
    match findField fs "strip_accents" with
    | none => some none
    | some v => asOptBool v
  pure (.bertNormalizer ct hcc sa lc)

/-- Modelled from the spec: leaf decoding for the normalizer family —
try each §6 signature in priority order; the first signature satisfied by
the object's field-name set wins, then its fields are read (§4.4). -/
def decodeNormLeaf (fs : List (String × JVal)) : Option NormalizerWrapper :=
  let ns := fs.map Prod.fst
  if sigMatch ns (NormTag.required .bertNormalizer) (NormTag.optional .bertNormalizer) then
    parseBert fs
  else if sigMatch ns (NormTag.required .lowercase) (NormTag.optional .lowercase) then
    some .lowercase
  else if sigMatch ns (NormTag.required .nfc) (NormTag.optional .nfc) then
    some .nfc
  else if sigMatch ns (NormTag.required .nfd) (NormTag.optional .nfd) then
    some .nfd
  else if sigMatch ns (NormTag.required .nfkc) (NormTag.optional .nfkc) then
    some .nfkc
  else if sigMatch ns (NormTag.required .nfkd) (NormTag.optional .nfkd) then
    some .nfkd
  else if sigMatch ns (NormTag.required .nmt) (NormTag.optional .nmt) then
    some .nmt
  else if sigMatch ns (NormTag.required .prepend) (NormTag.optional .prepend) then
    (findField fs "prepend" >>= asStr).map .prepend
  else if sigMatch ns (NormTag.required .replace) (NormTag.optional .replace) then do
    let pat ← findField fs "pattern" >>= asStr
    let c ← findField fs "content" >>= asStr
    pure (.replace pat c)
  else if sigMatch ns (NormTag.required .strip) (NormTag.optional .strip) then do
    let l ← findField fs "strip_left" >>= asBool
    let r ← findField fs "strip_right" >>= asBool
    pure (.stripNormalizer l r)
  else if sigMatch ns (NormTag.required .stripAccents) (NormTag.optional .stripAccents) then
    some .stripAccents
  else none

/-- Modelled from the spec: leaf decoding for the pre-tokenizer family
(§4.4 rule over the §6 signatures, in order). -/
def decodePreLeaf (fs : List (String × JVal)) : Option PreTokenizerWrapper :=
  let ns := fs.map Prod.fst
  if sigMatch ns (PreTag.required .bertPreTokenizer) (PreTag.optional .bertPreTokenizer) then
    some .bertPreTokenizer
  else if sigMatch ns (PreTag.required .byteLevel) (PreTag.optional .byteLevel) then do
    let aps ← findField fs "add_prefix_space" >>= asBool
    let ur ← findField fs "use_regex" >>= asBool
    pure (.byteLevel aps ur)
  else if sigMatch ns (PreTag.required .charDelimiterSplit) (PreTag.optional .charDelimiterSplit) then
    (findField fs "delimiter" >>= asChar).map .delimiter
  else if sigMatch ns (PreTag.required .digits) (PreTag.optional .digits) then
    (findField fs "individual_digits" >>= asBool).map .digits
  else if sigMatch ns (PreTag.required .metaspace) (PreTag.optional .metaspace) then do
    let r ← findField fs "replacement" >>= asChar
    let aps ← findField fs "add_prefix_space" >>= asBool
    pure (.metaspace r aps)
  else if sigMatch ns (PreTag.required .punctuation) (PreTag.optional .punctuation) then
    (findField fs "behavior" >>= asStr).map .punctuation
  else if sigMatch ns (PreTag.required .split) (PreTag.optional .split) then do
    let pat ← findField fs "pattern" >>= asStr
    let b ← findField fs "behavior" >>= asStr
    let inv ← findField fs "invert" >>= asBool
    pure (.split pat b inv)
  else if sigMatch ns (PreTag.required .unicodeScripts) (PreTag.optional .unicodeScripts) then
    some .unicodeScripts
  else if sigMatch ns (PreTag.required .whitespace) (PreTag.optional .whitespace) then
    some .whitespace
  else if sigMatch ns (PreTag.required .whitespaceSplit) (PreTag.optional .whitespaceSplit) then
    some .whitespaceSplit
  else none

/-- Map a fallible function over a list, succeeding only if every element
succeeds (the decode rule for the members of a serialized sequence). -/
def optionsMapAll {α β : Type} (g : α → Option β) : List α → Option (List β)
  | [] => some []
  | x :: xs =>
    match g x, optionsMapAll g xs with
    | some y, some ys => some (y :: ys)
    | _, _ => none

/-- Modelled from the spec: the decode procedure of the normalizer family
(§4.4) — an object carrying the sequence discriminator (`type =
"Sequence"`) has its `normalizers` list decoded elementwise by the same
rule and the results composed (re-flattened) into a `Sequence`; any other
object is decoded by the leaf signature rule.  The fuel argument bounds the
recursion depth by the structural size of the input. -/
def decodeNormF : Nat → JVal → Option RbNormalizerTypeWrapper
  | 0, _ => none
  | Nat.succ f, v =>
    match v with
    | .jobj fs =>
      match findField fs "type" with
      | some (.jstr "Sequence") =>
        match findField fs "normalizers" with
        | some (.jarr elems) =>
          match optionsMapAll (decodeNormF f) elems with
          | some ps => some (rbSequenceNew ps)
          | none => none
        | _ => none
      | _ =>
        match decodeNormLeaf fs with
        | some w => some (.Single (.Wrapped w))
        | none => none
    | _ => none

/-- Decoding of a structural value as a normalizer pipeline (recursion
depth is bounded by the input's size, so the fuel never runs out on the
reachable part of the input). -/
def decodeNorm (v : JVal) : Option RbNormalizerTypeWrapper :=
  decodeNormF (JVal.size v) v

/-- Modelled from the spec: decode procedure of the pre-tokenizer family
(§4.4), with the `pretokenizers` list field. -/
def decodePreF : Nat → JVal → Option RbPreTokenizerTypeWrapper
  | 0, _ => none
  | Nat.succ f, v =>
    match v with
    | .jobj fs =>
      match findField fs "type" with
      | some (.jstr "Sequence") =>
        match findField fs "pretokenizers" with
        | some (.jarr elems) =>
          match optionsMapAll (decodePreF f) elems with
          | some ps => some (rbSequenceNew ps)
          | none => none
        | _ => none
      | _ =>
        match decodePreLeaf fs with
        | some w => some (.Single (.Wrapped w))
        | none => none
    | _ => none

/-- Decoding of a structural value as a pre-tokenizer pipeline. -/
def decodePre (v : JVal) : Option RbPreTokenizerTypeWrapper :=
  decodePreF (JVal.size v) v

/-! ## Round trip -/

/-- The normalizer variants whose encoded field shape resolves back to the
same variant under the ordered signature-matching decode rule: the variants
with a nonempty required field set, plus `Lowercase`, the first zero-field
variant in the family's priority order.  The remaining zero-field variants
(`NFC`, `NFD`, `NFKC`, `NFKD`, `Nmt`, `StripAccents`) encode to an empty
object, which the ordered decode rule resolves to `Lowercase`. -/
def selfDecodingNorm : NormalizerWrapper → Bool
  | .bertNormalizer _ _ _ _ => true
  | .lowercase => true
  | .prepend _ => true
  | .replace _ _ => true
  | .stripNormalizer _ _ => true
  | _ => false

/-- The pre-tokenizer variants whose encoded field shape resolves back to
the same variant; the zero-field variants other than `BertPreTokenizer`
(the first zero-field variant in priority order) all decode to
`BertPreTokenizer`. -/
def selfDecodingPre : PreTokenizerWrapper → Bool
  | .bertPreTokenizer => true
  | .byteLevel _ _ => true
  | .delimiter _ => true
  | .digits _ => true
  | .metaspace _ _ => true
  | .punctuation _ => true
  | .split _ _ _ => true
  | _ => false

def cellSelfNorm : RbNormalizerWrapper → Bool
  | .Wrapped w => selfDecodingNorm w

def cellSelfPre : RbPreTokenizerWrapper → Bool
  | .Wrapped w => selfDecodingPre w

/-- Every leaf cell of the pipeline is a shape-identifiable variant. -/
def pipelineSelfNorm : RbNormalizerTypeWrapper → Bool
  | .Single c => cellSelfNorm c
  | .Sequence cs => cs.all cellSelfNorm

/-- Every leaf cell of the pipeline is a shape-identifiable variant. -/
def pipelineSelfPre : RbPreTokenizerTypeWrapper → Bool
  | .Single c => cellSelfPre c
  | .Sequence cs => cs.all cellSelfPre

theorem decodeNormF_leaf (f : Nat) (w : NormalizerWrapper)
    (h : selfDecodingNorm w = true) :
    decodeNormF (f + 1) (RbNormalizerWrapper.serialize (.Wrapped w)) =
      some (.Single (.Wrapped w)) := by
  cases w
  case bertNormalizer ct hcc sa lc => cases sa <;> rfl
  case lowercase => rfl
  case prepend => rfl
  case replace => rfl
  case stripNormalizer => rfl
  all_goals simp [selfDecodingNorm] at h

theorem decodePreF_leaf (f : Nat) (w : PreTokenizerWrapper)
    (h : selfDecodingPre w = true) :
    decodePreF (f + 1) (RbPreTokenizerWrapper.serialize (.Wrapped w)) =
      some (.Single (.Wrapped w)) := by
  cases w
  case bertPreTokenizer => rfl
  case byteLevel => rfl
  case delimiter => rfl
  case digits => rfl
  case metaspace => rfl
  case punctuation => rfl
  case split => rfl
  all_goals simp [selfDecodingPre] at h

theorem optionsMapAll_decodeNorm (f : Nat) (cells : List RbNormalizerWrapper)
    (h : cells.all cellSelfNorm = true) :
    optionsMapAll (decodeNormF (f + 1)) (cells.map RbNormalizerWrapper.serialize) =
      some (cells.map .Single) := by
  induction cells with
  | nil => rfl
  | cons c cs ih =>
    simp only [List.all_cons, Bool.and_eq_true] at h
    obtain ⟨w⟩ := c
    have hw : selfDecodingNorm w = true := by simpa [cellSelfNorm] using h.1
    simp [optionsMapAll, decodeNormF_leaf f w hw, ih h.2]

theorem optionsMapAll_decodePre (f : Nat) (cells : List RbPreTokenizerWrapper)
    (h : cells.all cellSelfPre = true) :
    optionsMapAll (decodePreF (f + 1)) (cells.map RbPreTokenizerWrapper.serialize) =
      some (cells.map .Single) := by
  induction cells with
  | nil => rfl
  | cons c cs ih =>
    simp only [List.all_cons, Bool.and_eq_true] at h
    obtain ⟨w⟩ := c
    have hw : selfDecodingPre w = true := by simpa [cellSelfPre] using h.1
    simp [optionsMapAll, decodePreF_leaf f w hw, ih h.2]

theorem rbSequenceNew_singles {κ : Type} (cells : List κ) :
    rbSequenceNew (cells.map .Single) = RbTypeWrapper.Sequence cells := by
  rw [rbSequenceNew_eq, List.map_map]
  congr 1
  induction cells with
  | nil => rfl
  | cons c cs ih => simpa [leafCells] using ih

theorem decodeNormF_sequence (f : Nat) (cells : List RbNormalizerWrapper)
    (h : cells.all cellSelfNorm = true) :
    decodeNormF (f + 2) (RbNormalizerTypeWrapper.serialize (.Sequence cells)) =
      some (.Sequence cells) := by
  have hmap := optionsMapAll_decodeNorm f cells h
  show (match optionsMapAll (decodeNormF (f + 1)) (cells.map RbNormalizerWrapper.serialize) with
        | some ps => some (rbSequenceNew ps)
        | none => none) = some (RbTypeWrapper.Sequence cells)
  rw [hmap]
  show some (rbSequenceNew (cells.map .Single)) = some (RbTypeWrapper.Sequence cells)
  rw [rbSequenceNew_singles]

theorem decodePreF_sequence (f : Nat) (cells : List RbPreTokenizerWrapper)
    (h : cells.all cellSelfPre = true) :
    decodePreF (f + 2) (RbPreTokenizerTypeWrapper.serialize (.Sequence cells)) =
      some (.Sequence cells) := by
  have hmap := optionsMapAll_decodePre f cells h
  show (match optionsMapAll (decodePreF (f + 1)) (cells.map RbPreTokenizerWrapper.serialize) with
        | some ps => some (rbSequenceNew ps)
        | none => none) = some (RbTypeWrapper.Sequence cells)
  rw [hmap]
  show some (rbSequenceNew (cells.map .Single)) = some (RbTypeWrapper.Sequence cells)
  rw [rbSequenceNew_singles]

theorem JVal.size_pos (v : JVal) : 1 ≤ JVal.size v := by
  cases v <;> simp [JVal.size]

theorem decodeNorm_roundtrip (p : RbNormalizerTypeWrapper)
    (h : pipelineSelfNorm p = true) :
    decodeNorm (RbNormalizerTypeWrapper.serialize p) = some p := by
  cases p with
  | Single c =>
    obtain ⟨w⟩ := c
    have h1 : selfDecodingNorm w = true := by
      simpa [pipelineSelfNorm, cellSelfNorm] using h
    have hsz := JVal.size_pos (RbNormalizerTypeWrapper.serialize (.Single (.Wrapped w)))
    obtain ⟨f, hf⟩ :
        ∃ f, JVal.size (RbNormalizerTypeWrapper.serialize (.Single (.Wrapped w))) = f + 1 :=
      ⟨JVal.size (RbNormalizerTypeWrapper.serialize (.Single (.Wrapped w))) - 1, by omega⟩
    unfold decodeNorm
    rw [hf]
    exact decodeNormF_leaf f w h1
  | Sequence cells =>
    have hall : cells.all cellSelfNorm = true := by simpa [pipelineSelfNorm] using h
    have hsz : 2 ≤ JVal.size (RbNormalizerTypeWrapper.serialize (.Sequence cells)) := by
      simp only [RbNormalizerTypeWrapper.serialize, JVal.size, JVal.sizeFields]
      omega
    obtain ⟨f, hf⟩ :
        ∃ f, JVal.size (RbNormalizerTypeWrapper.serialize (.Sequence cells)) = f + 2 :=
      ⟨JVal.size (RbNormalizerTypeWrapper.serialize (.Sequence cells)) - 2, by omega⟩
    unfold decodeNorm
    rw [hf]
    exact decodeNormF_sequence f cells hall

theorem decodePre_roundtrip (p : RbPreTokenizerTypeWrapper)
    (h : pipelineSelfPre p = true) :
    decodePre (RbPreTokenizerTypeWrapper.serialize p) = some p := by
  cases p with
  | Single c =>
    obtain ⟨w⟩ := c
    have h1 : selfDecodingPre w = true := by
      simpa [pipelineSelfPre, cellSelfPre] using h
    have hsz := JVal.size_pos (RbPreTokenizerTypeWrapper.serialize (.Single (.Wrapped w)))
    obtain ⟨f, hf⟩ :
        ∃ f, JVal.size (RbPreTokenizerTypeWrapper.serialize (.Single (.Wrapped w))) = f + 1 :=
      ⟨JVal.size (RbPreTokenizerTypeWrapper.serialize (.Single (.Wrapped w))) - 1, by omega⟩
    unfold decodePre
    rw [hf]
    exact decodePreF_leaf f w h1
  | Sequence cells =>
    have hall : cells.all cellSelfPre = true := by simpa [pipelineSelfPre] using h
    have hsz : 2 ≤ JVal.size (RbPreTokenizerTypeWrapper.serialize (.Sequence cells)) := by
      simp only [RbPreTokenizerTypeWrapper.serialize, JVal.size, JVal.sizeFields]
      omega
    obtain ⟨f, hf⟩ :
        ∃ f, JVal.size (RbPreTokenizerTypeWrapper.serialize (.Sequence cells)) = f + 2 :=
      ⟨JVal.size (RbPreTokenizerTypeWrapper.serialize (.Sequence cells)) - 2, by omega⟩
    unfold decodePre
    rw [hf]
    exact decodePreF_sequence f cells hall

/-- C1 (amended): decoding the encoded structural form of a pipeline yields
the same pipeline for every sequence pipeline (including ones built from
nested, now-flattened sequences) and for every single-stage pipeline, as
long as every leaf stage is a shape-identifiable variant: a variant with a
nonempty required interchange field set, or the first zero-field variant in
its family's signature priority order (`Lowercase`, `BertPreTokenizer`).
The other zero-field variants encode to an empty object, which the
shape-based decode rule cannot distinguish from the first zero-field
variant, so the round trip fails for them (see the counterexample). -/
theorem structural_roundtrip_holds_for_identifiable_variants :
    (∀ p : RbNormalizerTypeWrapper, pipelineSelfNorm p = true →
      decodeNorm (RbNormalizerTypeWrapper.serialize p) = some p) ∧
    (∀ p : RbPreTokenizerTypeWrapper, pipelineSelfPre p = true →
      decodePre (RbPreTokenizerTypeWrapper.serialize p) = some p) :=
  ⟨decodeNorm_roundtrip, decodePre_roundtrip⟩

/-- C1 witness: a concrete sequence pipeline of shape-identifiable leaf
stages round-trips through the codec. -/
theorem structural_roundtrip_witness :
    decodeNorm (RbNormalizerTypeWrapper.serialize
        (.Sequence [.Wrapped (.prepend "x"), .Wrapped (.stripNormalizer true false)])) =
      some (.Sequence [.Wrapped (.prepend "x"), .Wrapped (.stripNormalizer true false)]) :=
  structural_roundtrip_holds_for_identifiable_variants.1
    (.Sequence [.Wrapped (.prepend "x"), .Wrapped (.stripNormalizer true false)])
    (by decide)

/-- C1 counterexample: the claim as stated fails on the zero-field variant
`NFC` — its encoded form is the empty object, which the ordered shape-based
decode rule resolves to `Lowercase`, the first zero-field variant in the
signature priority order, so `decode(encode(NFC)) = Lowercase ≠ NFC`. -/
theorem structural_roundtrip_counterexample :
    decodeNorm (RbNormalizerTypeWrapper.serialize (.Single (.Wrapped .nfc))) =
      some (.Single (.Wrapped .lowercase)) ∧
    decodeNorm (RbNormalizerTypeWrapper.serialize (.Single (.Wrapped .nfc))) ≠
      some (.Single (.Wrapped .nfc)) := by
  decide

/-! ## Composition, execution, and the flatness invariant -/

/-- C2: composition (`RbSequence::new`, identical in both source files)
yields a `Sequence` whose cell list is the in-order concatenation of each
input's leaf cells — a `Single` contributes its one cell, a `Sequence`
contributes its cells in order.  In particular
`compose [A, compose [B, C], D]` has the same ordered leaf-cell list as
`compose [A, B, C, D]`, and the result's length equals the total leaf count
of the inputs. -/
theorem compose_flattens_in_order {κ : Type} (ps : List (RbTypeWrapper κ)) :
    rbSequenceNew ps = .Sequence ((ps.map leafCells).flatten) ∧
    leafCells (rbSequenceNew ps) = (ps.map leafCells).flatten ∧
    (∀ a b c d : RbTypeWrapper κ,
      leafCells (rbSequenceNew [a, rbSequenceNew [b, c], d]) =
        leafCells (rbSequenceNew [a, b, c, d])) ∧
    (leafCells (rbSequenceNew ps)).length =
      (ps.map fun p => (leafCells p).length).sum := by
  refine ⟨rbSequenceNew_eq ps, ?_, ?_, ?_⟩
  · rw [rbSequenceNew_eq]
    rfl
  · intro a b c d
    simp [rbSequenceNew_eq, leafCells]
  · rw [rbSequenceNew_eq]
    simp [leafCells, List.length_flatten, List.map_map, Function.comp_def]

/-- C9: executing an empty `Sequence` pipeline on any input succeeds and
returns the input unchanged, in both families (the dispatcher's
`try_for_each` over an empty cell list is a no-op). -/
theorem empty_sequence_execution_identity {σ ε : Type}
    (appN : RbNormalizerWrapper → σ → Except ε σ)
    (appP : RbPreTokenizerWrapper → σ → Except ε σ) (x : σ) :
    RbNormalizerTypeWrapper.normalize appN (.Sequence []) x = (x, none) ∧
    RbPreTokenizerTypeWrapper.pre_tokenize appP (.Sequence []) x = (x, none) :=
  ⟨rfl, rfl⟩

/-- C4: a `Sequence` pipeline executes its cells' stage operations in list
order, each consuming the previous stage's output (append decomposition of
`tryForEach`); and when a stage fails, execution stops at the first failing
stage: its error is propagated, the stages after it are never invoked (the
result does not depend on them), and the modifications already applied by
the stages before it are kept — the returned buffer state is exactly the
state the failing stage received.  Stated for the dispatchers of both
families. -/
theorem sequence_execution_order_and_first_failure :
    (∀ {κ σ ε : Type} (app : κ → σ → Except ε σ) (cs1 cs2 : List κ) (s : σ),
      tryForEach app (cs1 ++ cs2) s =
        match tryForEach app cs1 s with
        | (s1, none) => tryForEach app cs2 s1
        | (s1, some e) => (s1, some e)) ∧
    (∀ {σ ε : Type} (app : RbNormalizerWrapper → σ → Except ε σ)
      (pre post : List RbNormalizerWrapper) (c : RbNormalizerWrapper)
      (s s1 : σ) (e : ε),
      tryForEach app pre s = (s1, none) → app c s1 = .error e →
      RbNormalizerTypeWrapper.normalize app (.Sequence (pre ++ c :: post)) s = (s1, some e)) ∧
    (∀ {σ ε : Type} (app : RbPreTokenizerWrapper → σ → Except ε σ)
      (pre post : List RbPreTokenizerWrapper) (c : RbPreTokenizerWrapper)
      (s s1 : σ) (e : ε),
      tryForEach app pre s = (s1, none) → app c s1 = .error e →
      RbPreTokenizerTypeWrapper.pre_tokenize app (.Sequence (pre ++ c :: post)) s = (s1, some e)) :=
  ⟨fun app cs1 cs2 s => tryForEach_append app cs1 cs2 s,
   fun app pre post c s s1 e h1 h2 => tryForEach_first_failure app pre post c s s1 e h1 h2,
   fun app pre post c s s1 e h1 h2 => tryForEach_first_failure app pre post c s s1 e h1 h2⟩

/-- C4 witness: a concrete three-stage sequence whose second stage fails:
the first stage's effect (incrementing the counter) is kept, the error is
propagated, and the third stage does not run. -/
theorem sequence_execution_witness :
    RbNormalizerTypeWrapper.normalize
        (fun w n =>
          match w with
          | .Wrapped .lowercase => Except.ok (n + 1)
          | _ => Except.error "boom")
        (.Sequence [.Wrapped .lowercase, .Wrapped .nfc, .Wrapped .lowercase])
        (0 : Nat) =
      (1, some "boom") :=
  sequence_execution_order_and_first_failure.2.1
    (fun w n =>
      match w with
      | .Wrapped .lowercase => Except.ok (n + 1)
      | _ => Except.error "boom")
    [.Wrapped .lowercase] [.Wrapped .lowercase] (.Wrapped .nfc) 0 1 "boom" rfl rfl

/-- Nestable pipeline trees: the shape pipelines would have if a sequence
could contain arbitrary pipelines.  The concrete pipeline types embed into
this type via `toTree`; the §3 invariant says every producible pipeline's
tree is one level deep. -/
inductive PipelineTree (κ : Type) : Type where
  | leaf (cell : κ)
  | node (children : List (PipelineTree κ))

/-- Embedding of a pipeline value into the nestable tree shape. -/
def toTree {κ : Type} : RbTypeWrapper κ → PipelineTree κ
  | .Single c => .leaf c
  | .Sequence cs => .node (cs.map .leaf)

/-- Every member of a node is a leaf cell (no nested sequence). -/
def membersAreLeaves {κ : Type} : PipelineTree κ → Prop
  | .leaf _ => True
  | .node ts => ∀ t ∈ ts, ∃ c, t = .leaf c

/-- The normalizer pipelines producible by the public operations: the
variant constructors (each wraps one leaf cell into a `Single`),
composition (`RbSequence::new`), and decoding of arbitrary structural
input, including input containing nested serialized sequences. -/
inductive ProducedNorm : RbNormalizerTypeWrapper → Prop where
  | ctor (w : NormalizerWrapper) : ProducedNorm (.Single (.Wrapped w))
  | comp (ps : List RbNormalizerTypeWrapper) :
      (∀ p ∈ ps, ProducedNorm p) → ProducedNorm (rbSequenceNew ps)
  | dec (v : JVal) (p : RbNormalizerTypeWrapper) :
      decodeNorm v = some p → ProducedNorm p

/-- The pre-tokenizer pipelines producible by the public operations. -/
inductive ProducedPre : RbPreTokenizerTypeWrapper → Prop where
  | ctor (w : PreTokenizerWrapper) : ProducedPre (.Single (.Wrapped w))
  | comp (ps : List RbPreTokenizerTypeWrapper) :
      (∀ p ∈ ps, ProducedPre p) → ProducedPre (rbSequenceNew ps)
  | dec (v : JVal) (p : RbPreTokenizerTypeWrapper) :
      decodePre v = some p → ProducedPre p

theorem membersAreLeaves_toTree {κ : Type} (p : RbTypeWrapper κ) :
    membersAreLeaves (toTree p) := by
  cases p with
  | Single c => trivial
  | Sequence cs =>
    intro t ht
    rcases List.mem_map.mp ht with ⟨c, _, rfl⟩
    exact ⟨c, rfl⟩

/-- C3: every pipeline producible by the public operations — variant
constructors, composition, and decoding of structural input (including
nested serialized sequences, which the decode rule re-flattens through
composition) — has a flat shape: a `Sequence` never contains another
`Sequence`, its members are always leaf stage cells. -/
theorem produced_sequences_contain_only_leaf_cells :
    (∀ p, ProducedNorm p → membersAreLeaves (toTree p)) ∧
    (∀ p, ProducedPre p → membersAreLeaves (toTree p)) :=
  ⟨fun p _ => membersAreLeaves_toTree p, fun p _ => membersAreLeaves_toTree p⟩

/-- C3 witness: the pipeline decoded from structural input containing a
nested serialized sequence is flat (the nested sequence was flattened by
composition during decoding). -/
theorem produced_sequences_witness :
    membersAreLeaves (toTree (RbTypeWrapper.Sequence
      [RbNormalizerWrapper.Wrapped (.prepend "p"),
       RbNormalizerWrapper.Wrapped (.stripNormalizer true false)])) :=
  produced_sequences_contain_only_leaf_cells.1 _
    (ProducedNorm.dec
      (.jobj [("type", .jstr "Sequence"),
              ("normalizers", .jarr
                [.jobj [("type", .jstr "Sequence"),
                        ("normalizers", .jarr [.jobj [("prepend", .jstr "p")]])],
                 .jobj [("strip_left", .jbool true), ("strip_right", .jbool false)]])])
      _ (by decide))

/-! ## TypeResolver -/

/-- The interchange tag of a normalizer leaf variant. -/
def normTagOf : NormalizerWrapper → NormTag
  | .bertNormalizer _ _ _ _ => .bertNormalizer
  | .lowercase => .lowercase
  | .nfc => .nfc
  | .nfd => .nfd
  | .nfkc => .nfkc
  | .nfkd => .nfkd
  | .nmt => .nmt
  | .prepend _ => .prepend
  | .replace _ _ => .replace
  | .stripNormalizer _ _ => .strip
  | .stripAccents => .stripAccents

/-- The interchange tag of a pre-tokenizer leaf variant. -/
def preTagOf : PreTokenizerWrapper → PreTag
  | .bertPreTokenizer => .bertPreTokenizer
  | .byteLevel _ _ => .byteLevel
  | .delimiter _ => .charDelimiterSplit
  | .digits _ => .digits
  | .metaspace _ _ => .metaspace
  | .punctuation _ => .punctuation
  | .split _ _ _ => .split
  | .unicodeScripts => .unicodeScripts
  | .whitespace => .whitespace
  | .whitespaceSplit => .whitespaceSplit

/-- `TypedData::class_for` for `RbNormalizer` (`normalizers.rs`): a
`Sequence` resolves to the registered `Sequence` class; a `Single` is
matched on the wrapped variant and resolves to the correspondingly named
registered class (the source's memoized `const_get` class handles are
modelled by the class names it looks up). -/
def classForNorm : RbNormalizerTypeWrapper → String
  | .Sequence _ => "Sequence"
  | .Single (.Wrapped w) =>
    match w with
    | .bertNormalizer _ _ _ _ => "BertNormalizer"
    | .lowercase => "Lowercase"
    | .nfd => "NFD"
    | .nfc => "NFC"
    | .nfkc => "NFKC"
    | .nfkd => "NFKD"
    | .nmt => "Nmt"
    | .replace _ _ => "Replace"
    | .prepend _ => "Prepend"
    | .stripNormalizer _ _ => "Strip"
    | .stripAccents => "StripAccents"

/-- `TypedData::class_for` for `RbPreTokenizer` (`pre_tokenizers.rs`); the
`Delimiter` variant resolves to the `CharDelimiterSplit` class. -/
def classForPre : RbPreTokenizerTypeWrapper → String
  | .Sequence _ => "Sequence"
  | .Single (.Wrapped w) =>
    match w with
    | .bertPreTokenizer => "BertPreTokenizer"
    | .byteLevel _ _ => "ByteLevel"
    | .delimiter _ => "CharDelimiterSplit"
    | .digits _ => "Digits"
    | .metaspace _ _ => "Metaspace"
    | .punctuation _ => "Punctuation"
    | .split _ _ _ => "Split"
    | .unicodeScripts => "UnicodeScripts"
    | .whitespace => "Whitespace"
    | .whitespaceSplit => "WhitespaceSplit"

/-- Modelled from the spec: the variant descriptor belonging to each
normalizer catalog tag (§6 family list and §4.5). -/
def NormTag.descriptor : NormTag → String
  | .bertNormalizer => "BertNormalizer"
  | .lowercase => "Lowercase"
  | .nfc => "NFC"
  | .nfd => "NFD"
  | .nfkc => "NFKC"
  | .nfkd => "NFKD"
  | .nmt => "Nmt"
  | .prepend => "Prepend"
  | .replace => "Replace"
  | .strip => "Strip"
  | .stripAccents => "StripAccents"

/-- Modelled from the spec: the variant descriptor belonging to each
pre-tokenizer catalog tag (§6 family list and §4.5). -/
def PreTag.descriptor : PreTag → String
  | .bertPreTokenizer => "BertPreTokenizer"
  | .byteLevel => "ByteLevel"
  | .charDelimiterSplit => "CharDelimiterSplit"
  | .digits => "Digits"
  | .metaspace => "Metaspace"
  | .punctuation => "Punctuation"
  | .split => "Split"
  | .unicodeScripts => "UnicodeScripts"
  | .whitespace => "Whitespace"
  | .whitespaceSplit => "WhitespaceSplit"

/-- C6: `describe` (`TypedData::class_for`) is a total function over every
pipeline value of both families: a `Sequence` pipeline resolves to the
sequence descriptor, and a `Single` pipeline holding any catalog variant
resolves to exactly the descriptor matching that variant's tag — never a
wrong or default descriptor. -/
theorem class_for_total_and_tag_correct :
    (∀ cells, classForNorm (.Sequence cells) = "Sequence") ∧
    (∀ w : NormalizerWrapper,
      classForNorm (.Single (.Wrapped w)) = (normTagOf w).descriptor) ∧
    (∀ cells, classForPre (.Sequence cells) = "Sequence") ∧
    (∀ w : PreTokenizerWrapper,
      classForPre (.Single (.Wrapped w)) = (preTagOf w).descriptor) := by
  refine ⟨fun _ => rfl, fun w => ?_, fun _ => rfl, fun w => ?_⟩ <;> cases w <;> rfl

/-! ## Signature unambiguity -/

/-- C7 counterexample: the claim fails at the concrete pair
(`Punctuation`, `Split`) of the pre-tokenizer family — `Punctuation`'s
required interchange field set `{behavior}` IS a subset of `Split`'s
`{pattern, behavior, invert}` — and likewise at (`Lowercase`, `NFC`) of the
normalizer family, whose required field sets are both empty and hence
mutually subsets. -/
theorem signature_subset_counterexample :
    PreTag.punctuation ≠ PreTag.split ∧
    subsetB (PreTag.required .punctuation) (PreTag.required .split) = true ∧
    NormTag.lowercase ≠ NormTag.nfc ∧
    subsetB (NormTag.required .lowercase) (NormTag.required .nfc) = true := by
  decide

/-- C7 (amended): within one family, two distinct variants have equal
required field sets only when both are empty (the zero-field variants are
mutually indistinguishable by shape); and whenever two distinct variants
have different required field sets — including the proper-subset pair
`Punctuation` ⊂ `Split` — the complete encoded field set (required plus
optional) of the one never satisfies the signature of the other, because
of the no-extra-fields rule, so shape decoding between variants with
distinct field sets remains unambiguous. -/
theorem signature_distinguishability_amended :
    (∀ t1 t2 : NormTag, t1 ≠ t2 →
      (NormTag.required t1 = NormTag.required t2 → NormTag.required t1 = []) ∧
      (NormTag.required t1 ≠ NormTag.required t2 →
        sigMatch (NormTag.required t1 ++ NormTag.optional t1)
          (NormTag.required t2) (NormTag.optional t2) = false)) ∧
    (∀ t1 t2 : PreTag, t1 ≠ t2 →
      (PreTag.required t1 = PreTag.required t2 → PreTag.required t1 = []) ∧
      (PreTag.required t1 ≠ PreTag.required t2 →
        sigMatch (PreTag.required t1 ++ PreTag.optional t1)
          (PreTag.required t2) (PreTag.optional t2) = false)) := by
  decide

/-- C7 witness: `Split`'s signature rejects `Punctuation`'s encoded field
set even though `Punctuation`'s required fields are a subset of
`Split`'s. -/
theorem signature_distinguishability_witness :
    sigMatch (PreTag.required .punctuation ++ PreTag.optional .punctuation)
      (PreTag.required .split) (PreTag.optional .split) = false :=
  (signature_distinguishability_amended.2 .punctuation .split (by decide)).2 (by decide)

/-! ## Shared stage cells: the heap view

`Arc<RwLock<...>>` cells are shared-ownership containers; composition
clones the reference, never the stage data.  This view is modelled
explicitly: a heap is a list of stage values, a pipeline in the reference
view (`RbTypeWrapper Nat`) holds indices into the heap, and the accessor
macros read and write the heap through those indices.  `rbSequenceNew` on
reference pipelines is exactly the source's composition, which copies cell
references. -/

/-- The `setter!` macro of both source files: on a `Single` pipeline,
acquire the cell's write lock and run the variant-guarded field assignment
`upd` (`some` of the updated stage when the stage is the targeted variant,
`none` — leave the stage untouched — otherwise); on a `Sequence` pipeline
the outer `if let Single` match fails and nothing happens.  The setter
never reports an error. -/
def setterOp {κ : Type} (upd : κ → Option κ) :
    RbTypeWrapper Nat → List κ → List κ
  | .Single i, h =>
    match h[i]? with
    | some w =>
      match upd w with
      | some w2 => h.set i w2
      | none => h
    | none => h
  | .Sequence _, h => h

/-- The `getter!` macro of both source files: on a `Single` pipeline whose
stage is the targeted variant, read the field through the cell's read lock;
in every other case the source reaches `unreachable!` and aborts without
returning a value (modelled as `none`). -/
def getterOp {κ β : Type} (sel : κ → Option β) :
    RbTypeWrapper Nat → List κ → Option β
  | .Single i, h =>
    match h[i]? with
    | some w => sel w
    | none => none
  | .Sequence _, _ => none

/-- The variant-guarded update of `RbNormalizer::strip_set_left`
(`left=` on `Strip`): assign `strip_left` when the stage is the
`StripNormalizer` variant. -/
def stripLeftUpd (v : Bool) : RbNormalizerWrapper → Option RbNormalizerWrapper
  | .Wrapped (.stripNormalizer _ r) => some (.Wrapped (.stripNormalizer v r))
  | _ => none

/-- `RbNormalizer::strip_set_left` over the heap view. -/
def strip_set_left (v : Bool) :
    RbTypeWrapper Nat → List RbNormalizerWrapper → List RbNormalizerWrapper :=
  setterOp (stripLeftUpd v)

/-- The variant-guarded read of `RbNormalizer::strip_left`. -/
def stripLeftSel : RbNormalizerWrapper → Option Bool
  | .Wrapped (.stripNormalizer l _) => some l
  | _ => none

/-- `RbNormalizer::strip_left` over the heap view. -/
def strip_left : RbTypeWrapper Nat → List RbNormalizerWrapper → Option Bool :=
  getterOp stripLeftSel

/-- Does the stage hold the `Strip` variant (the target of the
`strip_*` accessors)? -/
def isStripVariant : RbNormalizerWrapper → Bool
  | .Wrapped (.stripNormalizer _ _) => true
  | _ => false

/-- The field assignment performed by `strip_set_left` on a matching
stage. -/
def stripLeftAssign (v : Bool) : RbNormalizerWrapper → RbNormalizerWrapper
  | .Wrapped (.stripNormalizer _ r) => .Wrapped (.stripNormalizer v r)
  | w => w

/-- The stage values a pipeline sees through its cell references. -/
def derefCells {κ : Type} (h : List κ) (p : RbTypeWrapper Nat) : List (Option κ) :=
  (leafCells p).map fun j => h[j]?

/-- C5: stage cells are shared, not copied: when a `Single` pipeline and
any other pipeline referencing the same heap cell coexist (for example a
`Sequence` built from the `Single` by composition, which copies the cell
reference), mutating the stage's configuration through the `Single`
pipeline's setter is visible through the other pipeline afterward: the
other pipeline dereferences the updated stage at the shared cell, while
every other cell it references is unchanged. -/
theorem shared_cell_mutation_visible_through_both_pipelines {κ : Type}
    (upd : κ → Option κ) (i : Nat) (w w2 : κ) (h : List κ)
    (p2 : RbTypeWrapper Nat)
    (hcell : h[i]? = some w) (hupd : upd w = some w2)
    (hshare : i ∈ leafCells p2) :
    derefCells (setterOp upd (.Single i) h) p2 =
      (leafCells p2).map (fun j => if j = i then some w2 else h[j]?) ∧
    some w2 ∈ derefCells (setterOp upd (.Single i) h) p2 := by
  have hlt : i < h.length := (List.getElem?_eq_some.mp hcell).1
  have hset : setterOp upd (.Single i) h = h.set i w2 := by
    simp [setterOp, hcell, hupd]
  have hderef : ∀ j, (h.set i w2)[j]? = if j = i then some w2 else h[j]? := by
    intro j
    by_cases hj : j = i
    · subst hj
      simp [List.getElem?_set_self hlt]
    · simp [hj, List.getElem?_set_ne fun e => hj e.symm]
  refine ⟨?_, ?_⟩
  · rw [hset]
    exact List.map_congr_left fun j _ => hderef j
  · rw [hset]
    refine List.mem_map.mpr ⟨i, hshare, ?_⟩
    simp [hderef i]

/-- C5 witness: a `Single` pipeline over cell 0 and the `Sequence` built
from it by composition share the cell; setting `strip_left` to `false`
through the `Single` pipeline is visible through the sequence. -/
theorem shared_cell_mutation_witness :
    derefCells
        (setterOp (stripLeftUpd false) (.Single 0)
          [RbNormalizerWrapper.Wrapped (.stripNormalizer true true)])
        (rbSequenceNew [.Single 0]) =
      [some (RbNormalizerWrapper.Wrapped (.stripNormalizer false true))] :=
  (shared_cell_mutation_visible_through_both_pipelines
    (stripLeftUpd false) 0 (.Wrapped (.stripNormalizer true true))
    (.Wrapped (.stripNormalizer false true))
    [.Wrapped (.stripNormalizer true true)]
    (rbSequenceNew [.Single 0]) rfl rfl (by decide)).1

/-- C10: frame conditions of the accessor macros, for any variant-guarded
accessor pair (`tgt` recognizes the targeted variant, `updF` is the field
assignment, and the setter's update and getter's read are guarded by the
variant as in the `setter!`/`getter!` macros): on a `Sequence` pipeline, or
on a `Single` pipeline holding a non-targeted variant, the setter leaves
the entire heap unchanged and reports no error, while the getter returns no
value (the source aborts at `unreachable!`); only on a `Single` pipeline
holding the targeted variant does the setter update exactly the referenced
cell, replacing its stage by the field-assigned stage and touching no other
cell. -/
theorem setter_noop_getter_abort_frame {κ β : Type}
    (tgt : κ → Bool) (updF : κ → κ)
    (upd : κ → Option κ) (sel : κ → Option β)
    (hupd : ∀ w, upd w = if tgt w then some (updF w) else none)
    (hsel : ∀ w, tgt w = false → sel w = none) :
    (∀ cells h, setterOp upd (.Sequence cells) h = h) ∧
    (∀ i h w, h[i]? = some w → tgt w = false → setterOp upd (.Single i) h = h) ∧
    (∀ cells h, getterOp sel (.Sequence cells) h = (none : Option β)) ∧
    (∀ i h w, h[i]? = some w → tgt w = false → getterOp sel (.Single i) h = none) ∧
    (∀ i h w, h[i]? = some w → tgt w = true →
      setterOp upd (.Single i) h = h.set i (updF w)) := by
  refine ⟨fun _ _ => rfl, ?_, fun _ _ => rfl, ?_, ?_⟩
  · intro i h w hc ht
    simp [setterOp, hc, hupd, ht]
  · intro i h w hc ht
    simp [getterOp, hc, hsel w ht]
  · intro i h w hc ht
    simp [setterOp, hc, hupd, ht]

/-- C10 witness: the `strip_left` setter pair at a concrete heap — a
matching `Single` updates exactly cell 0. -/
theorem setter_frame_witness :
    setterOp (stripLeftUpd false) (.Single 0)
        [RbNormalizerWrapper.Wrapped (.stripNormalizer true true),
         RbNormalizerWrapper.Wrapped .lowercase] =
      List.set
        [RbNormalizerWrapper.Wrapped (.stripNormalizer true true),
         RbNormalizerWrapper.Wrapped .lowercase] 0
        (stripLeftAssign false (.Wrapped (.stripNormalizer true true))) :=
  (setter_noop_getter_abort_frame isStripVariant (stripLeftAssign false)
    (stripLeftUpd false) stripLeftSel
    (fun w => by obtain ⟨w⟩ := w; cases w <;> rfl)
    (fun w hw => by
      obtain ⟨w⟩ := w
      cases w <;> first | rfl | exact Bool.noConfusion hw)).2.2.2.2
    0 _ _ rfl rfl

/-! ## Pre-tokenization offsets -/

/-- Modelled from the spec: the backend's `PreTokenizedString` buffer — the
original input text together with the current list of splits, each split
carrying its span text and its offsets expressed against the original input
(§6: the buffer tracks the mapping from transformed positions back to
original input positions). -/
structure PreTokenizedString : Type where
  original : String
  splits : List (String × Nat × Nat)

/-- `PreTokenizedString::from(s)`: a buffer with one split covering the
whole input. -/
def PreTokenizedString.fromStr (s : String) : PreTokenizedString :=
  ⟨s, [(s, 0, s.length)]⟩

/-- Modelled from the spec: `get_splits(OffsetReferential::Original,
OffsetType::Char)` — the splits with their original-referential character
offsets. -/
def PreTokenizedString.get_splits (p : PreTokenizedString) :
    List (String × Nat × Nat) :=
  p.splits

/-- Every split's offsets are a well-formed range within the tracked
original text. -/
def PreTokenizedString.offsetsWithinOriginal (p : PreTokenizedString) : Prop :=
  ∀ sp ∈ p.splits, sp.2.1 ≤ sp.2.2 ∧ sp.2.2 ≤ p.original.length

/-- `RbPreTokenizer::pre_tokenize_str` (`pre_tokenizers.rs`): build the
buffer from the input string, run the pipeline's `pre_tokenize` over it,
propagate a failure, and otherwise return
`get_splits(OffsetReferential::Original, OffsetType::Char)`. -/
def RbPreTokenizer.pre_tokenize_str {ε : Type}
    (app : RbPreTokenizerWrapper → PreTokenizedString → Except ε PreTokenizedString)
    (pretok : RbPreTokenizerTypeWrapper) (s : String) :
    Except ε (List (String × Nat × Nat)) :=
  match RbPreTokenizerTypeWrapper.pre_tokenize app pretok (PreTokenizedString.fromStr s) with
  | (p1, none) => .ok p1.get_splits
  | (_, some e) => .error e

theorem tryForEach_preserves {κ σ ε : Type} (app : κ → σ → Except ε σ)
    (P : σ → Prop) (hstep : ∀ c s s2, app c s = .ok s2 → P s → P s2) :
    ∀ (cs : List κ) (s : σ), P s → P (tryForEach app cs s).1 := by
  intro cs
  induction cs with
  | nil => intro s hs; exact hs
  | cons c cs ih =>
    intro s hs
    simp only [tryForEach]
    cases hc : app c s with
    | ok s2 => exact ih s2 (hstep c s s2 hc hs)
    | error e => exact hs

theorem dispatchRun_preserves {κ σ ε : Type} (app : κ → σ → Except ε σ)
    (P : σ → Prop) (hstep : ∀ c s s2, app c s = .ok s2 → P s → P s2)
    (p : RbTypeWrapper κ) (s : σ) (hs : P s) : P (dispatchRun app p s).1 := by
  cases p with
  | Single c =>
    simp only [dispatchRun]
    cases hc : app c s with
    | ok s2 => exact hstep c s s2 hc hs
    | error e => exact hs
  | Sequence cs => exact tryForEach_preserves app P hstep cs s hs

/-- C8: for every pre-tokenization pipeline and every input, the offsets of
the pairs returned by `pre_tokenize_str` are expressed relative to the
original input text — each is a well-formed range within the input,
regardless of how many stages the pipeline ran — provided each backend
stage operation honours the §6 buffer contract (it preserves the tracked
original text and keeps split offsets well formed against it). -/
theorem pre_tokenize_offsets_original_referential {ε : Type}
    (app : RbPreTokenizerWrapper → PreTokenizedString → Except ε PreTokenizedString)
    (happ : ∀ w p p2, app w p = .ok p2 →
      p2.original = p.original ∧
        (p.offsetsWithinOriginal → p2.offsetsWithinOriginal))
    (pretok : RbPreTokenizerTypeWrapper) (s : String)
    (out : List (String × Nat × Nat))
    (hrun : RbPreTokenizer.pre_tokenize_str app pretok s = .ok out) :
    ∀ sp ∈ out, sp.2.1 ≤ sp.2.2 ∧ sp.2.2 ≤ s.length := by
  have hstep : ∀ c p p2, app c p = .ok p2 →
      (p.original = s ∧ p.offsetsWithinOriginal) →
      (p2.original = s ∧ p2.offsetsWithinOriginal) := by
    intro c p p2 hc hp
    obtain ⟨h1, h2⟩ := happ c p p2 hc
    exact ⟨h1.trans hp.1, h2 hp.2⟩
  have hinit : (PreTokenizedString.fromStr s).original = s ∧
      (PreTokenizedString.fromStr s).offsetsWithinOriginal := by
    refine ⟨rfl, ?_⟩
    intro sp hsp
    simp only [PreTokenizedString.fromStr, List.mem_singleton] at hsp
    subst hsp
    exact ⟨Nat.zero_le _, le_refl _⟩
  have hfin := dispatchRun_preserves app _ hstep pretok (PreTokenizedString.fromStr s) hinit
  unfold RbPreTokenizer.pre_tokenize_str at hrun
  unfold RbPreTokenizerTypeWrapper.pre_tokenize at hrun
  cases hres : dispatchRun app pretok (PreTokenizedString.fromStr s) with
  | mk p1 err =>
    rw [hres] at hrun hfin
    cases err with
    | none =>
      simp only [Except.ok.injEq] at hrun
      subst hrun
      intro sp hsp
      have hb := hfin.2 sp hsp
      rw [hfin.1] at hb
      exact hb
    | some e => exact absurd hrun (by simp)

/-- C8 witness: the identity stage operation satisfies the buffer contract,
and running a single-stage pipeline over `"Hello World"` yields offsets
within the input. -/
theorem pre_tokenize_offsets_witness :
    (0 : Nat) ≤ 11 ∧ (11 : Nat) ≤ ("Hello World" : String).length :=
  pre_tokenize_offsets_original_referential (ε := Unit)
    (fun _ p => .ok p)
    (fun w p p2 hc => by cases hc; exact ⟨rfl, id⟩)
    (.Single (.Wrapped .whitespace)) "Hello World"
    [("Hello World", 0, 11)] rfl
    ("Hello World", 0, 11) (by simp)

end TokenizersRuby
